import Mathlib

/-!
# dirspy: a shallow embedding of `main.go`

The crawler of `src/main.go` is embedded as pure Lean functions.

* Go strings are sequences of Unicode code points (`Str`); `len` is the UTF-8
  byte length. On well-formed UTF-8 the byte-wise prefix, suffix and substring
  tests of package `strings` are the tests on code points.
* `map[string]FileInfo` is an association list with overwrite on insertion,
  `map[string]bool` (which only ever receives `true`) is the list of its keys.
* The collaborators that are not part of the repository (`strings.ToLower`,
  `html.Parse`, `url.Parse` with `ResolveReference`, `httpClient.Get` with
  `io.ReadAll`) are fields of `Config`, so every theorem holds for all of them.
* The recursion of `crawl` is bounded by a fuel argument; a run that uses it up
  keeps the state reached so far and raises `State.outOfFuel`.
* Printing has no effect on the state and is left out.
-/

namespace Dirspy

/-! ## Strings -/

/-- Go `string`, as the sequence of its code points. -/
abbrev Str := List Char

/-- Go `len(s)`: the number of bytes of the UTF-8 encoding. -/
def len (s : Str) : Nat := (s.map Char.utf8Size).sum

/-- Go `strings.HasPrefix(s, prefix)`:
`len(s) >= len(prefix) && s[:len(prefix)] == prefix`. -/
def HasPrefix (s pre : Str) : Bool :=
  decide (pre.length ≤ s.length) && (s.take pre.length == pre)

/-- Go `strings.HasSuffix(s, suffix)`:
`len(s) >= len(suffix) && s[len(s)-len(suffix):] == suffix`. -/
def HasSuffix (s suf : Str) : Bool :=
  decide (suf.length ≤ s.length) && (s.drop (s.length - suf.length) == suf)

/-- Scan of `strings.Index`: the first offset, counted from `i`, at which `substr`
starts in `s`, or `-1`. -/
def indexFrom (substr : Str) : Str → Nat → Int
  | [], i => if HasPrefix [] substr then (i : Int) else -1
  | c :: cs, i => if HasPrefix (c :: cs) substr then (i : Int) else indexFrom substr cs (i + 1)

/-- Go `strings.Index(s, substr)`. -/
def Index (s substr : Str) : Int := indexFrom substr s 0

/-- Go `strings.Contains(s, substr)`: `Index(s, substr) >= 0`. -/
def Contains (s substr : Str) : Bool := decide (0 ≤ Index s substr)

/-- Go `unicode.IsSpace`. -/
def isSpace (c : Char) : Bool :=
  let n := c.toNat
  (9 ≤ n && n ≤ 13) || n == 32 || n == 0x85 || n == 0xA0 || n == 0x1680 ||
    (0x2000 ≤ n && n ≤ 0x200A) || n == 0x2028 || n == 0x2029 || n == 0x202F ||
    n == 0x205F || n == 0x3000

/-- Go `strings.TrimSpace(s)`: leading and trailing white space removed. -/
def TrimSpace (s : Str) : Str :=
  ((s.dropWhile isSpace).reverse.dropWhile isSpace).reverse

/-- Go `strings.Split(s, sep)` for a separator of one character: the pieces of `s`
between the occurrences of `sep`; the empty string gives one empty piece. -/
def Split (s : Str) (sep : Char) : List Str :=
  match s with
  | [] => [[]]
  | c :: cs =>
    if c = sep then [] :: Split cs sep
    else
      match Split cs sep with
      | [] => [[c]]
      | piece :: pieces => (c :: piece) :: pieces

/-! ## Keyword search (`main.go` 120-134) -/

/-- The `for _, kw := range keywords` loop of `searchKeywords`, with `found` as the
accumulator. -/
def searchLoop (toLower : Str → Str) (contentLower : Str) : List Str → List Str → List Str
  | [], found => found
  | kw :: kws, found =>
    if Contains contentLower (toLower kw) then
      searchLoop toLower contentLower kws (found ++ [kw])
    else
      searchLoop toLower contentLower kws found

/-- Go `searchKeywords(content, keywords)`; `nil` and the empty slice are both `[]`. -/
def searchKeywords (toLower : Str → Str) (content : Str) (keywords : List Str) : List Str :=
  if keywords.length = 0 then []
  else searchLoop toLower (toLower content) keywords []

/-! ## Extension filter (`main.go` 199-211) -/

/-- The `for _, ext := range extensions` loop of `ignoreFileExtension`. -/
def extLoop (fileURL : Str) : List Str → Bool
  | [] => false
  | ext :: exts => if HasSuffix fileURL (TrimSpace ext) then true else extLoop fileURL exts

/-- Go `ignoreFileExtension(fileURL, extList)`. -/
def ignoreFileExtension (fileURL extList : Str) : Bool :=
  if extList = [] then false
  else extLoop fileURL (Split extList ',')

/-! ## Data model -/

/-- Go `FileInfo`. -/
structure FileInfo where
  URL : Str
  Size : Int
  Keywords : List Str
  deriving DecidableEq

/-- Outcome of `httpClient.Get(u)` followed by `io.ReadAll` of the body:
`error` is `err != nil` from `Get`; `response code none` is a response whose body
cannot be read; `response code (some b)` is a response with body `b`. -/
inductive GetResult where
  | error
  | response (code : Int) (body : Option Str)
  deriving DecidableEq

/-- Which statement issued a GET: `page` is line 223 (`crawl` itself), `file` is
line 277 (an anchor of a page). -/
inductive FetchKind where
  | page
  | file
  deriving DecidableEq

/-- One GET request with its outcome. -/
structure Fetch where
  kind : FetchKind
  url : Str
  result : GetResult
  deriving DecidableEq

/-- Go `html.NodeType`. -/
inductive NodeType where
  | ErrorNode
  | TextNode
  | DocumentNode
  | ElementNode
  | CommentNode
  | DoctypeNode
  deriving DecidableEq

/-- Go `html.Attribute` (the namespace is not read by the program). -/
structure Attribute where
  Key : Str
  Val : Str
  deriving DecidableEq

/-- Go `*html.Node`: `null` is the nil pointer, and a node carries the two pointers
`FirstChild` and `NextSibling` the program follows. -/
inductive Node where
  | null
  | node (type : NodeType) (data : Str) (attr : List Attribute)
      (firstChild : Node) (nextSibling : Node)
  deriving DecidableEq

/-- The two maps `crawl` mutates, with a record of what the run did: `gets` are the
GET requests issued and `calls` the URLs `crawl` was invoked on, both most recent
first; `outOfFuel` is raised when the recursion bound of the model is reached. -/
structure State where
  files : List (Str × FileInfo)
  visited : List Str
  gets : List Fetch
  calls : List Str
  outOfFuel : Bool
  deriving DecidableEq

/-- The arguments of `crawl` that stay fixed during a traversal, and the
collaborators from outside the repository. `get` receives the requests issued so
far, so a site may answer the same URL differently over time. `resolve base href`
is `url.Parse(base).ResolveReference(url.Parse(href)).String()`, and `none` when
`url.Parse(href)` fails; the base URL parses, since a link is only resolved after
the GET of the base URL went through. -/
structure Config where
  baseURL : Str
  ignoreCodes : Int → Bool
  keywords : List Str
  extList : Str
  toLower : Str → Str
  parse : Str → Option Node
  resolve : Str → Str → Option Str
  get : List Fetch → Str → GetResult

/-- `files` and `visited` as `main` creates them (lines 184-185). -/
def State.init : State :=
  { files := [], visited := [], gets := [], calls := [], outOfFuel := false }

/-- Go `files[k] = v`. -/
def mapSet (m : List (Str × FileInfo)) (k : Str) (v : FileInfo) : List (Str × FileInfo) :=
  (k, v) :: m.filter (fun p => p.1 != k)

/-- The keys of `files`. -/
def State.fileKeys (st : State) : List Str := st.files.map Prod.fst

/-- The URLs of the GET requests issued by `crawl` itself (line 223). -/
def State.pageGets (st : State) : List Str :=
  (st.gets.filter (fun f => f.kind == FetchKind.page)).map Fetch.url

/-- The URLs of all GET requests issued. -/
def State.getURLs (st : State) : List Str := st.gets.map Fetch.url

/-! ## The traversal (`main.go` 213-323) -/

/-- Lines 265-272: the URL an anchor's `href` stands for; `none` is the `continue`
taken when `url.Parse(href)` fails. -/
def resolveHref (c : Config) (href : Str) : Option Str :=
  if !HasPrefix href "http".toList then c.resolve c.baseURL href
  else some href

/-- Lines 277-311: the file branch for a resolved `href`. -/
def fetchFile (c : Config) (href : Str) (st : State) : State :=
  let r := c.get st.gets href
  let st1 := { st with gets := ⟨FetchKind.file, href, r⟩ :: st.gets }
  match r with
  | GetResult.error => st1
  | GetResult.response _ none => st1
  | GetResult.response code (some body) =>
    if code = 200 then
      if !ignoreFileExtension href c.extList then
        let info : FileInfo := ⟨href, (len body : Int), searchKeywords c.toLower body c.keywords⟩
        { st1 with files := mapSet st1.files href info }
      else st1
    else st1

/-- Lines 274-312: what is done with a resolved `href`; `recurse` is the recursive
call of `crawl`. -/
def followHref (recurse : Str → State → State) (c : Config) (href : Str) (st : State) :
    State :=
  if st.outOfFuel then st
  else if HasSuffix href "/".toList && HasPrefix href c.baseURL then recurse href st
  else if HasPrefix href c.baseURL then fetchFile c href st
  else st

/-- Lines 262-314: the loop over the attributes of an `a` element. -/
def processAttrs (recurse : Str → State → State) (c : Config) :
    List Attribute → State → State
  | [], st => st
  | a :: as, st =>
    if a.Key = "href".toList then
      match resolveHref c a.Val with
      | none => processAttrs recurse c as st
      | some href => processAttrs recurse c as (followHref recurse c href st)
    else processAttrs recurse c as st

/-- Lines 261-315: what `processNode` does with the node itself, before it walks
the children. -/
def processElement (recurse : Str → State → State) (c : Config) (ty : NodeType)
    (data : Str) (attr : List Attribute) (st : State) : State :=
  if ty = NodeType.ElementNode ∧ data = "a".toList then processAttrs recurse c attr st
  else st

/-- Lines 316-318: the loop `for c := ...; c != nil; c = c.NextSibling` with
`processNode(c)` as its body, entered at the node given: the node itself is
handled, then the loop over its children runs, then the loop goes on with the
next sibling. -/
def processSiblings (recurse : Str → State → State) (c : Config) : Node → State → State
  | Node.null, st => st
  | Node.node ty data attr firstChild nextSibling, st =>
    processSiblings recurse c nextSibling
      (processSiblings recurse c firstChild (processElement recurse c ty data attr st))

/-- Lines 260-319: `processNode(n)`; `html.Parse` never hands out a nil document. -/
def processNode (recurse : Str → State → State) (c : Config) : Node → State → State
  | Node.null, st => st
  | Node.node ty data attr firstChild _, st =>
    processSiblings recurse c firstChild (processElement recurse c ty data attr st)

/-- Lines 215-321 of `crawl`, the recursive call being `recurse`. -/
def crawlBody (recurse : Str → State → State) (c : Config) (currentURL : Str)
    (st : State) : State :=
  let st0 := { st with calls := currentURL :: st.calls }
  if !ignoreFileExtension currentURL c.extList then
    if currentURL ∈ st0.visited then st0
    else
      let r := c.get st0.gets currentURL
      let st1 := { st0 with visited := currentURL :: st0.visited,
                            gets := ⟨FetchKind.page, currentURL, r⟩ :: st0.gets }
      match r with
      | GetResult.error => st1
      | GetResult.response code body =>
        if code ≠ 200 ∧ c.ignoreCodes code = true then st1
        else
          match body with
          | none => st1
          | some bodyContent =>
            match c.parse bodyContent with
            | none => st1
            | some doc => processNode recurse c doc st1
  else st0

/-- Go `crawl(baseURL, currentURL, files, visited, ignoreCodes, keywords, extList,
colors, httpClient)`, with at most `fuel` nested calls. -/
def crawl : Nat → Config → Str → State → State
  | 0, _, _, st => { st with outOfFuel := true }
  | fuel + 1, c, currentURL, st =>
    if st.outOfFuel then st
    else crawlBody (crawl fuel c) c currentURL st

/-- Lines 184-187 of `main`: the traversal from the base URL with empty maps. -/
def run (fuel : Nat) (c : Config) : State := crawl fuel c c.baseURL State.init

/-! ## Links of a document, and the steps of a traversal -/

/-- The values of the `href` attributes of an attribute list, in order. -/
def hrefsAttrs : List Attribute → List Str
  | [] => []
  | a :: as => if a.Key = "href".toList then a.Val :: hrefsAttrs as else hrefsAttrs as

/-- The `href` values `processSiblings` meets, in the order it meets them. -/
def hrefsSiblings : Node → List Str
  | Node.null => []
  | Node.node ty data attr firstChild nextSibling =>
    (if ty = NodeType.ElementNode ∧ data = "a".toList then hrefsAttrs attr else [])
      ++ hrefsSiblings firstChild ++ hrefsSiblings nextSibling

/-- The `href` values `processNode` meets, in document order. -/
def hrefsNode : Node → List Str
  | Node.null => []
  | Node.node ty data attr firstChild _ =>
    (if ty = NodeType.ElementNode ∧ data = "a".toList then hrefsAttrs attr else [])
      ++ hrefsSiblings firstChild

/-- The resolved links of a document, in document order; an `href` that
`url.Parse` rejects yields none. -/
def links (c : Config) (doc : Node) : List Str :=
  (hrefsNode doc).filterMap (resolveHref c)

/-- Line 274: the test for a subdirectory link. -/
def isDirLink (c : Config) (href : Str) : Bool :=
  HasSuffix href "/".toList && HasPrefix href c.baseURL

/-- The request `f` is a page whose links were followed, and `u` is one of them. -/
def linkOf (c : Config) (f : Fetch) (u : Str) : Prop :=
  f.kind = FetchKind.page ∧
    ∃ code body doc, f.result = GetResult.response code (some body) ∧
      ¬ (code ≠ 200 ∧ c.ignoreCodes code = true) ∧
      c.parse body = some doc ∧ u ∈ links c doc

/-- The URL `u` is a link of a page fetched earlier in the run. -/
def Found (c : Config) (st : State) (u : Str) : Prop :=
  ∃ f ∈ st.gets, linkOf c f u

/-- What `crawl` is invoked on: the base URL, or a subdirectory link of a page
fetched earlier. -/
def Target (c : Config) (st : State) (u : Str) : Prop :=
  u = c.baseURL ∨ (isDirLink c u = true ∧ Found c st u)

/-- The state after `crawl` was entered on `cur` and left at once. -/
def State.called (st : State) (cur : Str) : State :=
  { st with calls := cur :: st.calls }

/-- The state after `crawl` was entered on `cur`, marked it visited and issued its
GET, which gave `r`. -/
def State.entered (st : State) (cur : Str) (r : GetResult) : State :=
  { st with calls := cur :: st.calls, visited := cur :: st.visited,
            gets := ⟨FetchKind.page, cur, r⟩ :: st.gets }

/-- One state change of a traversal. -/
inductive Step (c : Config) : State → State → Prop where
  | skip (st : State) (cur : Str) (ht : Target c st cur)
      (hs : ignoreFileExtension cur c.extList = true ∨ cur ∈ st.visited) :
      Step c st (st.called cur)
  | enter (st : State) (cur : Str) (ht : Target c st cur)
      (he : ignoreFileExtension cur c.extList = false) (hv : cur ∉ st.visited) :
      Step c st (st.entered cur (c.get st.gets cur))
  | file (st : State) (href : Str) (hp : HasPrefix href c.baseURL = true)
      (hs : HasSuffix href "/".toList = false) (hf : Found c st href) :
      Step c st (fetchFile c href st)
  | fuel (st : State) : Step c st { st with outOfFuel := true }

/-- Reachability by the steps of a traversal. -/
def Reach (c : Config) : State → State → Prop := Relation.ReflTransGen (Step c)

/-- The list `S` holds the base URL and every subdirectory link of every page the
site can serve: the site has finitely many in-scope directory URLs. -/
def Closed (c : Config) (S : List Str) : Prop :=
  c.baseURL ∈ S ∧
    ∀ hist u code body doc, c.get hist u = GetResult.response code (some body) →
      c.parse body = some doc → ∀ l ∈ links c doc, isDirLink c l = true → l ∈ S

/-- The number of URLs of `S` not yet visited. -/
def unvisited (S : List Str) (st : State) : Nat :=
  (S.filter (fun u => decide (u ∉ st.visited))).length

/-! ## Properties kept by every step -/

/-- Scope: every URL the run has touched has the base URL as a prefix. -/
def InScope (c : Config) (st : State) : Prop :=
  (∀ f ∈ st.gets, HasPrefix f.url c.baseURL = true) ∧
  (∀ u ∈ st.calls, HasPrefix u c.baseURL = true) ∧
  (∀ u ∈ st.visited, HasPrefix u c.baseURL = true) ∧
  (∀ p ∈ st.files, HasPrefix p.1 c.baseURL = true)

/-- Extension filter: nothing that the filter rejects is visited, recorded, or
fetched by `crawl` itself; and what the file branch fetches does not end with a
slash. -/
def Filtered (c : Config) (st : State) : Prop :=
  (∀ u ∈ st.visited, ignoreFileExtension u c.extList = false) ∧
  (∀ p ∈ st.files, ignoreFileExtension p.1 c.extList = false) ∧
  (∀ f ∈ st.gets, (f.kind = FetchKind.page ∧ ignoreFileExtension f.url c.extList = false) ∨
    (f.kind = FetchKind.file ∧ HasSuffix f.url "/".toList = false))

/-- Result set: every entry was stored by the file branch, and every visited URL
is the base URL or ends with a slash. -/
def Recorded (c : Config) (st : State) : Prop :=
  (∀ p ∈ st.files,
    HasSuffix p.1 "/".toList = false ∧
    ignoreFileExtension p.1 c.extList = false ∧
    p.2.URL = p.1 ∧
    ∃ f ∈ st.gets, f.kind = FetchKind.file ∧ f.url = p.1 ∧
      ∃ body, f.result = GetResult.response 200 (some body)) ∧
  (∀ u ∈ st.visited, u = c.baseURL ∨ HasSuffix u "/".toList = true)

/-- Every recorded outcome is an answer of the site. -/
def Served (c : Config) (st : State) : Prop :=
  ∀ f ∈ st.gets, ∃ hist, c.get hist f.url = f.result

/-- The visited list never holds a URL twice, and it is the list of the pages
fetched. -/
def VisitedOnce (st : State) : Prop :=
  st.visited.Nodup ∧ st.pageGets = st.visited

/-- Within a closed list: only answers of the site are recorded, and only URLs of
the list are visited. -/
def Within (c : Config) (S : List Str) (st : State) : Prop :=
  Served c st ∧ ∀ u ∈ st.visited, u ∈ S

/-! ## Example sites -/

/-- `strings.ToLower` on ASCII text. -/
def asciiLower (s : Str) : Str := s.map Char.toLower

/-- Reference resolution for a base that ends with a slash and a relative path
without dot segments: the path is appended to the base. -/
def joinURL (base href : Str) : Option Str := some (base ++ href)

/-- An `a` element with one `href` attribute and a text child, followed by the
sibling `next`. -/
def anchor (href text : String) (next : Node) : Node :=
  Node.node NodeType.ElementNode "a".toList [⟨"href".toList, href.toList⟩]
    (Node.node NodeType.TextNode text.toList [] Node.null Node.null) next

/-- The tree `html.Parse` builds around the elements found in a body: a document
node, `html`, an empty `head`, and `body` with the elements as children. -/
def document (children : Node) : Node :=
  Node.node NodeType.DocumentNode [] []
    (Node.node NodeType.ElementNode "html".toList []
      (Node.node NodeType.ElementNode "head".toList [] Node.null
        (Node.node NodeType.ElementNode "body".toList [] children Node.null))
      Node.null)
    Node.null

/-- A site given by a table from URL to answer; a URL outside the table cannot be
reached (`err != nil`). -/
def siteGet (table : List (String × GetResult)) : List Fetch → Str → GetResult :=
  fun _ u =>
    match (table.map (fun p => (p.1.toList, p.2))).lookup u with
    | some r => r
    | none => GetResult.error

/-- A parser given by a table from body text to parse tree. -/
def siteParse (table : List (String × Node)) : Str → Option Node :=
  fun b => (table.map (fun p => (p.1.toList, p.2))).lookup b

/-- A 200 response with the given body. -/
def ok (body : String) : GetResult := GetResult.response 200 (some body.toList)

/-- The example of the specification: the page at `http://ex.com/` links `sub/` and
`file.txt`, the file holds `secret=1`, the keyword list is `["secret"]`. -/
def exSite : Config where
  baseURL := "http://ex.com/".toList
  ignoreCodes := fun _ => false
  keywords := ["secret".toList]
  extList := []
  toLower := asciiLower
  parse := siteParse
    [("<a href=\"sub/\">sub/</a><a href=\"file.txt\">file.txt</a>",
        document (anchor "sub/" "sub/" (anchor "file.txt" "file.txt" Node.null))),
     ("", document Node.null)]
  resolve := joinURL
  get := siteGet
    [("http://ex.com/", ok "<a href=\"sub/\">sub/</a><a href=\"file.txt\">file.txt</a>"),
     ("http://ex.com/sub/", ok ""),
     ("http://ex.com/file.txt", ok "secret=1")]

/-- A page that links the same file from two anchors. -/
def dupSite : Config where
  baseURL := "http://ex.com/".toList
  ignoreCodes := fun _ => false
  keywords := []
  extList := []
  toLower := asciiLower
  parse := siteParse
    [("<a href=\"http://ex.com/f\">1</a><a href=\"http://ex.com/f\">2</a>",
        document (anchor "http://ex.com/f" "1" (anchor "http://ex.com/f" "2" Node.null)))]
  resolve := joinURL
  get := siteGet
    [("http://ex.com/", ok "<a href=\"http://ex.com/f\">1</a><a href=\"http://ex.com/f\">2</a>"),
     ("http://ex.com/f", ok "x")]

/-- A page that links another host. -/
def otherSite : Config where
  baseURL := "http://ex.com/".toList
  ignoreCodes := fun _ => false
  keywords := []
  extList := []
  toLower := asciiLower
  parse := siteParse
    [("<a href=\"http://other.com/\">o</a>", document (anchor "http://other.com/" "o" Node.null)),
     ("", document Node.null)]
  resolve := joinURL
  get := siteGet
    [("http://ex.com/", ok "<a href=\"http://other.com/\">o</a>"),
     ("http://other.com/", ok "")]

/-- A site with a picture, crawled with the extension list `.jpg`. -/
def jpgSite : Config where
  baseURL := "http://ex.com/".toList
  ignoreCodes := fun _ => false
  keywords := []
  extList := ".jpg".toList
  toLower := asciiLower
  parse := siteParse
    [("<a href=\"http://ex.com/a.jpg\">a</a>", document (anchor "http://ex.com/a.jpg" "a" Node.null))]
  resolve := joinURL
  get := siteGet
    [("http://ex.com/", ok "<a href=\"http://ex.com/a.jpg\">a</a>"),
     ("http://ex.com/a.jpg", ok "x")]

/-- A base URL without a final slash whose page links to itself. -/
def selfSite : Config where
  baseURL := "http://ex.com/index".toList
  ignoreCodes := fun _ => false
  keywords := []
  extList := []
  toLower := asciiLower
  parse := siteParse
    [("<a href=\"http://ex.com/index\">self</a>",
        document (anchor "http://ex.com/index" "self" Node.null))]
  resolve := joinURL
  get := siteGet
    [("http://ex.com/index", ok "<a href=\"http://ex.com/index\">self</a>")]

/-- A base URL that answers 404, crawled with 404 among the ignored codes. -/
def notFoundSite : Config where
  baseURL := "http://ex.com/".toList
  ignoreCodes := fun code => code == 404
  keywords := []
  extList := []
  toLower := asciiLower
  parse := siteParse
    [("<a href=\"http://ex.com/f\">f</a>", document (anchor "http://ex.com/f" "f" Node.null))]
  resolve := joinURL
  get := siteGet
    [("http://ex.com/", GetResult.response 404 (some "<a href=\"http://ex.com/f\">f</a>".toList)),
     ("http://ex.com/f", ok "x")]

/-- The same site crawled with no ignored code. -/
def errorPageSite : Config :=
  { notFoundSite with ignoreCodes := fun _ => false }

/-- A listing with the two files `httpd.conf` and `readme.txt`. -/
def httpdSite : Config where
  baseURL := "http://ex.com/".toList
  ignoreCodes := fun _ => false
  keywords := []
  extList := []
  toLower := asciiLower
  parse := siteParse
    [("<a href=\"httpd.conf\">httpd.conf</a><a href=\"readme.txt\">readme.txt</a>",
        document (anchor "httpd.conf" "httpd.conf" (anchor "readme.txt" "readme.txt" Node.null)))]
  resolve := joinURL
  get := siteGet
    [("http://ex.com/",
        ok "<a href=\"httpd.conf\">httpd.conf</a><a href=\"readme.txt\">readme.txt</a>"),
     ("http://ex.com/httpd.conf", ok "Listen 80"),
     ("http://ex.com/readme.txt", ok "hello")]

/-- Two pages that link each other and themselves. -/
def cycleSite : Config where
  baseURL := "http://ex.com/".toList
  ignoreCodes := fun _ => false
  keywords := []
  extList := []
  toLower := asciiLower
  parse := siteParse
    [("<a href=\"sub/\">sub</a><a href=\"http://ex.com/\">self</a>",
        document (anchor "sub/" "sub" (anchor "http://ex.com/" "self" Node.null))),
     ("<a href=\"http://ex.com/\">up</a><a href=\"http://ex.com/sub/\">self</a>",
        document (anchor "http://ex.com/" "up" (anchor "http://ex.com/sub/" "self" Node.null)))]
  resolve := joinURL
  get := siteGet
    [("http://ex.com/", ok "<a href=\"sub/\">sub</a><a href=\"http://ex.com/\">self</a>"),
     ("http://ex.com/sub/",
        ok "<a href=\"http://ex.com/\">up</a><a href=\"http://ex.com/sub/\">self</a>")]

/-- The example of the specification crawled with the extension list `.jpg, ,.png`,
whose second entry is a single space. -/
def blankExtSite : Config :=
  { exSite with extList := ".jpg, ,.png".toList }

/-! ## Facts about the string primitives -/

theorem HasPrefix_iff (s pre : Str) : HasPrefix s pre = true ↔ pre <+: s := by
  unfold HasPrefix
  rw [List.prefix_iff_eq_take]
  constructor
  · intro h
    simp only [Bool.and_eq_true, decide_eq_true_eq, beq_iff_eq] at h
    exact h.2.symm
  · intro h
    have hl : pre.length ≤ s.length := by
      have := congrArg List.length h
      simp only [List.length_take] at this
      omega
    simp only [Bool.and_eq_true, decide_eq_true_eq, beq_iff_eq]
    exact ⟨hl, h.symm⟩

theorem HasSuffix_iff (s suf : Str) : HasSuffix s suf = true ↔ suf <:+ s := by
  unfold HasSuffix
  rw [List.suffix_iff_eq_drop]
  constructor
  · intro h
    simp only [Bool.and_eq_true, decide_eq_true_eq, beq_iff_eq] at h
    exact h.2.symm
  · intro h
    have hl : suf.length ≤ s.length := by
      have := congrArg List.length h
      simp only [List.length_drop] at this
      omega
    simp only [Bool.and_eq_true, decide_eq_true_eq, beq_iff_eq]
    exact ⟨hl, h.symm⟩

theorem HasPrefix_self (s : Str) : HasPrefix s s = true :=
  (HasPrefix_iff s s).2 (List.prefix_refl s)

theorem HasSuffix_nil (s : Str) : HasSuffix s [] = true :=
  (HasSuffix_iff s []).2 List.nil_suffix

theorem indexFrom_nonneg_iff (substr : Str) (s : Str) (i : Nat) :
    0 ≤ indexFrom substr s i ↔ substr <:+: s := by
  induction s generalizing i with
  | nil =>
    unfold indexFrom
    cases h : HasPrefix [] substr with
    | true =>
      have hp := (HasPrefix_iff _ _).1 h
      simp only [if_true]
      exact ⟨fun _ => hp.isInfix, fun _ => Int.ofNat_nonneg i⟩
    | false =>
      simp only [Bool.false_eq_true, if_false]
      constructor
      · intro h0
        omega
      · intro hin
        have hnil : substr = [] := List.eq_nil_of_infix_nil hin
        rw [hnil] at h
        rw [HasPrefix_self] at h
        exact absurd h (by decide)
  | cons c cs ih =>
    unfold indexFrom
    cases h : HasPrefix (c :: cs) substr with
    | true =>
      have hp := (HasPrefix_iff _ _).1 h
      simp only [if_true]
      exact ⟨fun _ => hp.isInfix, fun _ => Int.ofNat_nonneg i⟩
    | false =>
      simp only [Bool.false_eq_true, if_false]
      rw [ih (i + 1)]
      constructor
      · intro hin
        exact hin.trans (List.suffix_cons c cs).isInfix
      · intro hin
        rcases List.infix_cons_iff.1 hin with hp | hin'
        · rw [(HasPrefix_iff _ _).2 hp] at h
          exact absurd h (by decide)
        · exact hin'

theorem Contains_iff (s substr : Str) : Contains s substr = true ↔ substr <:+: s := by
  unfold Contains Index
  rw [decide_eq_true_eq]
  exact indexFrom_nonneg_iff substr s 0

theorem searchLoop_eq (toLower : Str → Str) (cl : Str) (kws found : List Str) :
    searchLoop toLower cl kws found
      = found ++ kws.filter (fun kw => Contains cl (toLower kw)) := by
  induction kws generalizing found with
  | nil => simp [searchLoop]
  | cons kw kws ih =>
    unfold searchLoop
    cases h : Contains cl (toLower kw) with
    | true =>
      simp only [if_true, List.filter_cons_of_pos, h]
      rw [ih]
      simp
    | false =>
      simp only [Bool.false_eq_true, if_false]
      rw [ih]
      simp [h]

theorem searchKeywords_eq_filter (toLower : Str → Str) (T : Str) (K : List Str) :
    searchKeywords toLower T K
      = K.filter (fun kw => Contains (toLower T) (toLower kw)) := by
  unfold searchKeywords
  by_cases h : K.length = 0
  · have : K = [] := List.length_eq_zero.1 h
    subst this
    simp
  · simp only [h, if_false]
    rw [searchLoop_eq]
    simp

/-! ## The tree walk as a fold over the links -/

/-- Lines 264-312 for one `href` value. -/
theorem processAttrs_eq_foldl (recurse : Str → State → State) (c : Config)
    (as : List Attribute) (st : State) :
    processAttrs recurse c as st
      = ((hrefsAttrs as).filterMap (resolveHref c)).foldl
          (fun s h => followHref recurse c h s) st := by
  induction as generalizing st with
  | nil => rfl
  | cons a as ih =>
    unfold processAttrs hrefsAttrs
    by_cases hk : a.Key = "href".toList
    · simp only [hk, if_true]
      cases hr : resolveHref c a.Val with
      | none => simp only [List.filterMap_cons_none hr]; exact ih st
      | some h => simp only [List.filterMap_cons_some hr, List.foldl_cons]; exact ih _
    · simp only [hk, if_false]
      exact ih st

theorem processElement_eq_foldl (recurse : Str → State → State) (c : Config)
    (ty : NodeType) (data : Str) (attr : List Attribute) (st : State) :
    processElement recurse c ty data attr st
      = ((if ty = NodeType.ElementNode ∧ data = "a".toList then hrefsAttrs attr
          else []).filterMap (resolveHref c)).foldl
          (fun s h => followHref recurse c h s) st := by
  unfold processElement
  by_cases h : ty = NodeType.ElementNode ∧ data = "a".toList
  · simp only [h, and_self, if_true]
    exact processAttrs_eq_foldl recurse c attr st
  · simp only [h, if_false]
    rfl

theorem processSiblings_eq_foldl (recurse : Str → State → State) (c : Config)
    (n : Node) (st : State) :
    processSiblings recurse c n st
      = ((hrefsSiblings n).filterMap (resolveHref c)).foldl
          (fun s h => followHref recurse c h s) st := by
  induction n generalizing st with
  | null => rfl
  | node ty data attr fc ns ihc ihs =>
    unfold processSiblings hrefsSiblings
    rw [ihs, ihc, processElement_eq_foldl]
    simp only [List.filterMap_append, List.foldl_append]

theorem processNode_eq_foldl (recurse : Str → State → State) (c : Config)
    (n : Node) (st : State) :
    processNode recurse c n st
      = (links c n).foldl (fun s h => followHref recurse c h s) st := by
  cases n with
  | null => rfl
  | node ty data attr fc ns =>
    simp only [processNode, links, hrefsNode]
    rw [processSiblings_eq_foldl, processElement_eq_foldl]
    simp only [List.filterMap_append, List.foldl_append]

theorem foldl_invariant {α β : Type} (f : β → α → β) (I : β → Prop) (l : List α)
    (h : ∀ s a, a ∈ l → I s → I (f s a)) (b : β) (hb : I b) : I (l.foldl f b) := by
  induction l generalizing b with
  | nil => exact hb
  | cons a l ih =>
    simp only [List.foldl_cons]
    apply ih
    · intro s x hx hs
      exact h s x (List.mem_cons_of_mem _ hx) hs
    · exact h b a (List.mem_cons_self _ _) hb

/-! ## One call of `crawl` -/

theorem crawl_succ (fuel : Nat) (c : Config) (cur : Str) (st : State)
    (hf : st.outOfFuel = false) :
    crawl (fuel + 1) c cur st = crawlBody (crawl fuel c) c cur st := by
  simp [crawl, hf]

theorem crawl_outOfFuel (fuel : Nat) (c : Config) (cur : Str) (st : State)
    (hf : st.outOfFuel = true) : crawl (fuel + 1) c cur st = st := by
  simp [crawl, hf]

/-- The three ways a call of `crawl` ends. -/
theorem crawlBody_cases (recurse : Str → State → State) (c : Config) (cur : Str)
    (st : State) :
    ((ignoreFileExtension cur c.extList = true ∨ cur ∈ st.visited) ∧
        crawlBody recurse c cur st = st.called cur) ∨
    (ignoreFileExtension cur c.extList = false ∧ cur ∉ st.visited ∧
        crawlBody recurse c cur st = st.entered cur (c.get st.gets cur)) ∨
    (ignoreFileExtension cur c.extList = false ∧ cur ∉ st.visited ∧
        ∃ code body doc, c.get st.gets cur = GetResult.response code (some body) ∧
          ¬ (code ≠ 200 ∧ c.ignoreCodes code = true) ∧ c.parse body = some doc ∧
          crawlBody recurse c cur st
            = (links c doc).foldl (fun s h => followHref recurse c h s)
                (st.entered cur (c.get st.gets cur))) := by
  cases he : ignoreFileExtension cur c.extList with
  | true => exact Or.inl ⟨Or.inl rfl, by simp [crawlBody, he, State.called]⟩
  | false =>
    by_cases hv : cur ∈ st.visited
    · exact Or.inl ⟨Or.inr hv, by simp [crawlBody, he, hv, State.called]⟩
    · right
      cases hg : c.get st.gets cur with
      | error => exact Or.inl ⟨rfl, hv, by simp [crawlBody, he, hv, hg, State.entered]⟩
      | response code body =>
        by_cases hi : code ≠ 200 ∧ c.ignoreCodes code = true
        · exact Or.inl ⟨rfl, hv, by simp [crawlBody, he, hv, hg, hi, State.entered]⟩
        · cases body with
          | none =>
            exact Or.inl ⟨rfl, hv, by simp [crawlBody, he, hv, hg, hi, State.entered]⟩
          | some b =>
            cases hp : c.parse b with
            | none =>
              exact Or.inl ⟨rfl, hv, by simp [crawlBody, he, hv, hg, hi, hp, State.entered]⟩
            | some doc =>
              refine Or.inr ⟨rfl, hv, code, b, doc, rfl, hi, hp, ?_⟩
              rw [← processNode_eq_foldl]
              simp [crawlBody, he, hv, hg, hi, hp, State.entered]

/-! ## Every traversal is a sequence of steps -/

theorem fetchFile_visited (c : Config) (href : Str) (st : State) :
    (fetchFile c href st).visited = st.visited := by
  unfold fetchFile
  cases c.get st.gets href with
  | error => rfl
  | response code body =>
    cases body with
    | none => rfl
    | some b => simp only; split_ifs <;> rfl

theorem fetchFile_calls (c : Config) (href : Str) (st : State) :
    (fetchFile c href st).calls = st.calls := by
  unfold fetchFile
  cases c.get st.gets href with
  | error => rfl
  | response code body =>
    cases body with
    | none => rfl
    | some b => simp only; split_ifs <;> rfl

theorem fetchFile_outOfFuel (c : Config) (href : Str) (st : State) :
    (fetchFile c href st).outOfFuel = st.outOfFuel := by
  unfold fetchFile
  cases c.get st.gets href with
  | error => rfl
  | response code body =>
    cases body with
    | none => rfl
    | some b => simp only; split_ifs <;> rfl

theorem fetchFile_gets (c : Config) (href : Str) (st : State) :
    (fetchFile c href st).gets = ⟨FetchKind.file, href, c.get st.gets href⟩ :: st.gets := by
  unfold fetchFile
  cases c.get st.gets href with
  | error => rfl
  | response code body =>
    cases body with
    | none => rfl
    | some b => simp only; split_ifs <;> rfl

/-- The file branch leaves `files` alone, or stores the entry of line 294 after a
200 response for a URL that passes the extension filter. -/
theorem fetchFile_files (c : Config) (href : Str) (st : State) :
    (fetchFile c href st).files = st.files ∨
    (ignoreFileExtension href c.extList = false ∧
      ∃ body, c.get st.gets href = GetResult.response 200 (some body) ∧
        (fetchFile c href st).files
          = mapSet st.files href
              ⟨href, (len body : Int), searchKeywords c.toLower body c.keywords⟩) := by
  unfold fetchFile
  cases hg : c.get st.gets href with
  | error => exact Or.inl rfl
  | response code body =>
    cases body with
    | none => exact Or.inl rfl
    | some b =>
      by_cases hc : code = 200
      · cases he : ignoreFileExtension href c.extList with
        | true => left; simp [hc, he]
        | false =>
          right
          subst hc
          exact ⟨rfl, b, rfl, by simp [he]⟩
      · left; simp [hc]

theorem step_gets_suffix {c : Config} {s t : State} (h : Step c s t) :
    s.gets <:+ t.gets := by
  cases h with
  | skip cur ht hs => exact List.suffix_refl _
  | enter cur ht he hv => exact List.suffix_cons _ _
  | file href hp hs hf => rw [fetchFile_gets]; exact List.suffix_cons _ _
  | fuel => exact List.suffix_refl _

theorem step_visited_suffix {c : Config} {s t : State} (h : Step c s t) :
    s.visited <:+ t.visited := by
  cases h with
  | skip cur ht hs => exact List.suffix_refl _
  | enter cur ht he hv => exact List.suffix_cons _ _
  | file href hp hs hf => rw [fetchFile_visited]
  | fuel => exact List.suffix_refl _

theorem Reach.refl (c : Config) (s : State) : Reach c s s := Relation.ReflTransGen.refl

theorem Reach.trans {c : Config} {s t u : State} (h₁ : Reach c s t) (h₂ : Reach c t u) :
    Reach c s u := Relation.ReflTransGen.trans h₁ h₂

theorem reach_of_step {c : Config} {s t : State} (h : Step c s t) : Reach c s t :=
  Relation.ReflTransGen.single h

/-- A property kept by every step holds after every traversal. -/
theorem Reach.invariant {c : Config} (P : State → Prop)
    (hstep : ∀ s t, Step c s t → P s → P t) {s t : State} (h : Reach c s t) (hs : P s) :
    P t := by
  induction h with
  | refl => exact hs
  | tail _ hst ih => exact hstep _ _ hst ih

theorem reach_gets_suffix {c : Config} {s t : State} (h : Reach c s t) :
    s.gets <:+ t.gets := by
  induction h with
  | refl => exact List.suffix_refl _
  | tail _ hst ih => exact ih.trans (step_gets_suffix hst)

theorem reach_visited_suffix {c : Config} {s t : State} (h : Reach c s t) :
    s.visited <:+ t.visited := by
  induction h with
  | refl => exact List.suffix_refl _
  | tail _ hst ih => exact ih.trans (step_visited_suffix hst)

theorem Found.mono {c : Config} {s t : State} {u : Str} (h : s.gets <:+ t.gets)
    (hf : Found c s u) : Found c t u := by
  obtain ⟨f, hfm, hl⟩ := hf
  exact ⟨f, h.subset hfm, hl⟩

/-- One anchor of a fetched page, followed with a recursive call that is itself a
sequence of steps. -/
theorem followHref_reach (recurse : Str → State → State) (c : Config)
    (hrec : ∀ u s, Target c s u → Reach c s (recurse u s))
    (href : Str) (st : State) (hf : Found c st href) :
    Reach c st (followHref recurse c href st) := by
  unfold followHref
  cases ho : st.outOfFuel with
  | true => simp only [if_true]; exact Reach.refl c st
  | false =>
    simp only [Bool.false_eq_true, if_false]
    by_cases hd : (HasSuffix href "/".toList && HasPrefix href c.baseURL) = true
    · simp only [hd, if_true]
      exact hrec href st (Or.inr ⟨hd, hf⟩)
    · simp only [hd, if_false]
      cases hp : HasPrefix href c.baseURL with
      | true =>
        simp only [if_true]
        apply reach_of_step
        apply Step.file st href hp _ hf
        cases hs : HasSuffix href "/".toList with
        | false => rfl
        | true => rw [hs, hp] at hd; exact absurd rfl hd
      | false => simp only [Bool.false_eq_true, if_false]; exact Reach.refl c st

theorem crawl_reach (c : Config) (fuel : Nat) (cur : Str) (st : State)
    (ht : Target c st cur) : Reach c st (crawl fuel c cur st) := by
  induction fuel generalizing cur st with
  | zero => exact reach_of_step (Step.fuel st)
  | succ fuel ih =>
    cases ho : st.outOfFuel with
    | true => rw [crawl_outOfFuel fuel c cur st ho]; exact Reach.refl c st
    | false =>
      rw [crawl_succ fuel c cur st ho]
      rcases crawlBody_cases (crawl fuel c) c cur st with
        ⟨hs, heq⟩ | ⟨he, hv, heq⟩ | ⟨he, hv, code, body, doc, hg, hi, hp, heq⟩
      · rw [heq]; exact reach_of_step (Step.skip st cur ht hs)
      · rw [heq]; exact reach_of_step (Step.enter st cur ht he hv)
      · rw [heq]
        have h1 : Reach c st (st.entered cur (c.get st.gets cur)) :=
          reach_of_step (Step.enter st cur ht he hv)
        apply foldl_invariant (fun s h => followHref (crawl fuel c) c h s)
          (fun s => Reach c st s ∧
            (st.entered cur (c.get st.gets cur)).gets <:+ s.gets) (links c doc) _ _
          ⟨h1, List.suffix_refl _⟩ |>.1
        intro s l hl hs
        have hfound : Found c s l := by
          refine ⟨⟨FetchKind.page, cur, c.get st.gets cur⟩, ?_, rfl, code, body, doc,
            hg, hi, hp, hl⟩
          exact hs.2.subset (List.mem_cons_self _ _)
        have hr := followHref_reach (crawl fuel c) c (fun u s' hu => ih u s' hu) l s hfound
        exact ⟨hs.1.trans hr, hs.2.trans (reach_gets_suffix hr)⟩

theorem run_reach (c : Config) (fuel : Nat) : Reach c State.init (run fuel c) :=
  crawl_reach c fuel c.baseURL State.init (Or.inl rfl)

/-! ## Invariants of a traversal -/

theorem mem_mapSet {m : List (Str × FileInfo)} {k : Str} {v : FileInfo}
    {p : Str × FileInfo} (h : p ∈ mapSet m k v) : p = (k, v) ∨ p ∈ m := by
  unfold mapSet at h
  rcases List.mem_cons.1 h with h | h
  · exact Or.inl h
  · exact Or.inr (List.mem_filter.1 h).1

theorem pageGets_entered (st : State) (cur : Str) (r : GetResult) :
    (st.entered cur r).pageGets = cur :: st.pageGets := by
  simp [State.pageGets, State.entered]

theorem pageGets_fetchFile (c : Config) (href : Str) (st : State) :
    (fetchFile c href st).pageGets = st.pageGets := by
  unfold State.pageGets
  rw [fetchFile_gets]
  simp

theorem Target.inScope {c : Config} {st : State} {u : Str} (h : Target c st u) :
    HasPrefix u c.baseURL = true := by
  rcases h with rfl | ⟨hd, _⟩
  · exact HasPrefix_self _
  · unfold isDirLink at hd
    simp only [Bool.and_eq_true] at hd
    exact hd.2

theorem inScope_step {c : Config} {s t : State} (h : Step c s t) (hs : InScope c s) :
    InScope c t := by
  obtain ⟨hg, hc, hv, hf⟩ := hs
  cases h with
  | skip cur ht hsk =>
    refine ⟨hg, ?_, hv, hf⟩
    intro u hu
    rcases List.mem_cons.1 hu with rfl | hu
    · exact ht.inScope
    · exact hc u hu
  | enter cur ht he hnv =>
    refine ⟨?_, ?_, ?_, hf⟩
    · intro f hfm
      rcases List.mem_cons.1 hfm with rfl | hfm
      · exact ht.inScope
      · exact hg f hfm
    · intro u hu
      rcases List.mem_cons.1 hu with rfl | hu
      · exact ht.inScope
      · exact hc u hu
    · intro u hu
      rcases List.mem_cons.1 hu with rfl | hu
      · exact ht.inScope
      · exact hv u hu
  | file href hp hsf hfd =>
    refine ⟨?_, ?_, ?_, ?_⟩
    · intro f hfm
      rw [fetchFile_gets] at hfm
      rcases List.mem_cons.1 hfm with rfl | hfm
      · exact hp
      · exact hg f hfm
    · rw [fetchFile_calls]; exact hc
    · rw [fetchFile_visited]; exact hv
    · intro p hpm
      rcases fetchFile_files c href s with heq | ⟨_, body, _, heq⟩
      · rw [heq] at hpm; exact hf p hpm
      · rw [heq] at hpm
        rcases mem_mapSet hpm with rfl | hpm
        · exact hp
        · exact hf p hpm
  | fuel => exact ⟨hg, hc, hv, hf⟩

theorem filtered_step {c : Config} {s t : State} (h : Step c s t) (hs : Filtered c s) :
    Filtered c t := by
  obtain ⟨hv, hf, hg⟩ := hs
  cases h with
  | skip cur ht hsk => exact ⟨hv, hf, hg⟩
  | enter cur ht he hnv =>
    refine ⟨?_, hf, ?_⟩
    · intro u hu
      rcases List.mem_cons.1 hu with rfl | hu
      · exact he
      · exact hv u hu
    · intro f hfm
      rcases List.mem_cons.1 hfm with rfl | hfm
      · exact Or.inl ⟨rfl, he⟩
      · exact hg f hfm
  | file href hpre hsf hfd =>
    refine ⟨?_, ?_, ?_⟩
    · rw [fetchFile_visited]; exact hv
    · intro p hpm
      rcases fetchFile_files c href s with heq | ⟨he, body, _, heq⟩
      · rw [heq] at hpm; exact hf p hpm
      · rw [heq] at hpm
        rcases mem_mapSet hpm with rfl | hpm
        · exact he
        · exact hf p hpm
    · intro f hfm
      rw [fetchFile_gets] at hfm
      rcases List.mem_cons.1 hfm with rfl | hfm
      · exact Or.inr ⟨rfl, hsf⟩
      · exact hg f hfm
  | fuel => exact ⟨hv, hf, hg⟩

theorem Target.base_or_dir {c : Config} {st : State} {u : Str} (h : Target c st u) :
    u = c.baseURL ∨ HasSuffix u "/".toList = true := by
  rcases h with h | ⟨hd, _⟩
  · exact Or.inl h
  · unfold isDirLink at hd
    simp only [Bool.and_eq_true] at hd
    exact Or.inr hd.1

theorem recorded_step {c : Config} {s t : State} (h : Step c s t) (hs : Recorded c s) :
    Recorded c t := by
  obtain ⟨hf, hv⟩ := hs
  cases h with
  | skip cur ht hsk => exact ⟨hf, hv⟩
  | enter cur ht he hnv =>
    refine ⟨?_, ?_⟩
    · intro p hpm
      obtain ⟨h1, h2, h3, f, hfm, h4⟩ := hf p hpm
      exact ⟨h1, h2, h3, f, List.mem_cons_of_mem _ hfm, h4⟩
    · intro u hu
      rcases List.mem_cons.1 hu with rfl | hu
      · exact ht.base_or_dir
      · exact hv u hu
  | file href hpre hsf hfd =>
    refine ⟨?_, ?_⟩
    · intro p hpm
      have hold : p ∈ s.files →
          HasSuffix p.1 "/".toList = false ∧
          ignoreFileExtension p.1 c.extList = false ∧
          p.2.URL = p.1 ∧
          ∃ f ∈ (fetchFile c href s).gets, f.kind = FetchKind.file ∧ f.url = p.1 ∧
            ∃ body, f.result = GetResult.response 200 (some body) := by
        intro hpm'
        obtain ⟨h1, h2, h3, f, hfm, h4⟩ := hf p hpm'
        refine ⟨h1, h2, h3, f, ?_, h4⟩
        rw [fetchFile_gets]
        exact List.mem_cons_of_mem _ hfm
      rcases fetchFile_files c href s with heq | ⟨he, body, hg, heq⟩
      · rw [heq] at hpm; exact hold hpm
      · rw [heq] at hpm
        rcases mem_mapSet hpm with rfl | hpm
        · refine ⟨hsf, he, rfl, ⟨FetchKind.file, href, c.get s.gets href⟩, ?_, rfl, rfl,
            body, hg⟩
          rw [fetchFile_gets]
          exact List.mem_cons_self _ _
        · exact hold hpm
    · rw [fetchFile_visited]; exact hv
  | fuel => exact ⟨hf, hv⟩

/-! ## Termination through the visited set -/

theorem served_step {c : Config} {s t : State} (h : Step c s t) (hs : Served c s) :
    Served c t := by
  cases h with
  | skip cur ht hsk => exact hs
  | enter cur ht he hv =>
    intro f hf
    rcases List.mem_cons.1 hf with rfl | hf
    · exact ⟨s.gets, rfl⟩
    · exact hs f hf
  | file href hp hsf hfd =>
    intro f hf
    rw [fetchFile_gets] at hf
    rcases List.mem_cons.1 hf with rfl | hf
    · exact ⟨s.gets, rfl⟩
    · exact hs f hf
  | fuel => exact hs

theorem visitedOnce_step {c : Config} {s t : State} (h : Step c s t)
    (hs : VisitedOnce s) : VisitedOnce t := by
  cases h with
  | skip cur ht hsk => exact hs
  | enter cur ht he hv =>
    refine ⟨List.nodup_cons.2 ⟨hv, hs.1⟩, ?_⟩
    rw [pageGets_entered, hs.2]
    rfl
  | file href hp hsf hfd =>
    refine ⟨?_, ?_⟩
    · rw [fetchFile_visited]; exact hs.1
    · rw [pageGets_fetchFile, fetchFile_visited]; exact hs.2
  | fuel => exact hs

theorem Target.mem_closed {c : Config} {S : List Str} (hS : Closed c S) {st : State}
    {u : Str} (hsv : Served c st) (h : Target c st u) : u ∈ S := by
  rcases h with rfl | ⟨hd, f, hfm, _, code, body, doc, hres, _, hparse, hl⟩
  · exact hS.1
  · obtain ⟨hist, hget⟩ := hsv f hfm
    exact hS.2 hist f.url code body doc (hget.trans hres) hparse u hl hd

theorem within_step {c : Config} {S : List Str} (hS : Closed c S) {s t : State}
    (h : Step c s t) (hs : Within c S s) : Within c S t := by
  refine ⟨served_step h hs.1, ?_⟩
  cases h with
  | skip cur ht hsk => exact hs.2
  | enter cur ht he hv =>
    intro u hu
    rcases List.mem_cons.1 hu with rfl | hu
    · exact ht.mem_closed hS hs.1
    · exact hs.2 u hu
  | file href hp hsf hfd => rw [fetchFile_visited]; exact hs.2
  | fuel => exact hs.2

theorem unvisited_mono (S : List Str) {s t : State} (h : s.visited ⊆ t.visited) :
    unvisited S t ≤ unvisited S s := by
  unfold unvisited
  apply List.Sublist.length_le
  apply List.monotone_filter_right
  intro u hu
  simp only [decide_eq_true_eq] at hu ⊢
  exact fun hm => hu (h hm)

theorem unvisited_entered (S : List Str) (st : State) (cur : Str) (r : GetResult)
    (hc : cur ∈ S) (hv : cur ∉ st.visited) :
    unvisited S (st.entered cur r) < unvisited S st := by
  unfold unvisited
  induction S with
  | nil => exact absurd hc (List.not_mem_nil _)
  | cons a S ih =>
    have hle : (List.filter (fun u => decide (u ∉ (st.entered cur r).visited)) S).length
        ≤ (List.filter (fun u => decide (u ∉ st.visited)) S).length := by
      apply List.Sublist.length_le
      apply List.monotone_filter_right
      intro u hu
      simp only [decide_eq_true_eq, State.entered, List.mem_cons, not_or] at hu ⊢
      exact hu.2
    by_cases hac : a = cur
    · subst hac
      have h1 : decide (a ∉ (st.entered a r).visited) = false := by
        simp [State.entered]
      have h2 : decide (a ∉ st.visited) = true := by simp [hv]
      simp only [List.filter_cons, h1, h2, if_true, Bool.false_eq_true, if_false,
        List.length_cons]
      omega
    · have hc' : cur ∈ S := by
        rcases List.mem_cons.1 hc with h | h
        · exact absurd h.symm hac
        · exact h
      have ih' := ih hc'
      by_cases hav : a ∈ st.visited
      · have h1 : decide (a ∉ (st.entered cur r).visited) = false := by
          simp [State.entered, hav]
        have h2 : decide (a ∉ st.visited) = false := by simp [hav]
        simp only [List.filter_cons, h1, h2, Bool.false_eq_true, if_false]
        exact ih'
      · have h1 : decide (a ∉ (st.entered cur r).visited) = true := by
          simp [State.entered, hav, hac]
        have h2 : decide (a ∉ st.visited) = true := by simp [hav]
        simp only [List.filter_cons, h1, h2, if_true, List.length_cons]
        omega

theorem unvisited_le_length (S : List Str) (st : State) : unvisited S st ≤ S.length :=
  List.length_filter_le _ _

theorem followHref_outOfFuel (recurse : Str → State → State) (c : Config) (href : Str)
    (st : State) (ho : st.outOfFuel = false)
    (hrec : isDirLink c href = true → (recurse href st).outOfFuel = false) :
    (followHref recurse c href st).outOfFuel = false := by
  unfold followHref
  simp only [ho, Bool.false_eq_true, if_false]
  by_cases hd : (HasSuffix href "/".toList && HasPrefix href c.baseURL) = true
  · simp only [hd, if_true]
    exact hrec hd
  · simp only [hd, if_false]
    cases hp : HasPrefix href c.baseURL with
    | true =>
      simp only [if_true, Bool.false_eq_true, if_false]
      rw [fetchFile_outOfFuel]; exact ho
    | false => simp only [Bool.false_eq_true, if_false]; exact ho

theorem followHref_visited_suffix (recurse : Str → State → State) (c : Config)
    (hrec : ∀ u s, s.visited <:+ (recurse u s).visited) (href : Str) (st : State) :
    st.visited <:+ (followHref recurse c href st).visited := by
  unfold followHref
  split_ifs
  · exact List.suffix_refl _
  · exact hrec href st
  · rw [fetchFile_visited]
  · exact List.suffix_refl _

/-- With more fuel than there are unvisited URLs in a closed list, the recursion
bound is not reached. -/
theorem crawl_enough (c : Config) (S : List Str) (hS : Closed c S) (fuel : Nat)
    (cur : Str) (st : State) (hw : Within c S st) (ht : Target c st cur)
    (ho : st.outOfFuel = false) (hlt : unvisited S st < fuel) :
    (crawl fuel c cur st).outOfFuel = false := by
  induction fuel generalizing cur st with
  | zero => exact absurd hlt (Nat.not_lt_zero _)
  | succ fuel ih =>
    rw [crawl_succ fuel c cur st ho]
    rcases crawlBody_cases (crawl fuel c) c cur st with
      ⟨hs, heq⟩ | ⟨he, hv, heq⟩ | ⟨he, hv, code, body, doc, hg, hi, hp, heq⟩
    · rw [heq]; exact ho
    · rw [heq]; exact ho
    · rw [heq]
      have hcur : cur ∈ S := ht.mem_closed hS hw.1
      have hstep : Step c st (st.entered cur (c.get st.gets cur)) :=
        Step.enter st cur ht he hv
      have hlt1 : unvisited S (st.entered cur (c.get st.gets cur)) < fuel := by
        have := unvisited_entered S st cur (c.get st.gets cur) hcur hv
        omega
      apply foldl_invariant (fun s h => followHref (crawl fuel c) c h s)
        (fun s => Reach c (st.entered cur (c.get st.gets cur)) s ∧ s.outOfFuel = false)
        (links c doc) _ _ ⟨Reach.refl c _, ho⟩ |>.2
      intro s l hl hs
      have hfound : Found c s l := by
        refine ⟨⟨FetchKind.page, cur, c.get st.gets cur⟩, ?_, rfl, code, body, doc,
          hg, hi, hp, hl⟩
        exact (reach_gets_suffix hs.1).subset (List.mem_cons_self _ _)
      have hr := followHref_reach (crawl fuel c) c
        (fun u s' hu => crawl_reach c fuel u s' hu) l s hfound
      refine ⟨hs.1.trans hr, ?_⟩
      apply followHref_outOfFuel _ _ _ _ hs.2
      intro hd
      have hws : Within c S s :=
        Reach.invariant (Within c S) (fun _ _ h => within_step hS h) hs.1
          (within_step hS hstep hw)
      apply ih l s hws (Or.inr ⟨hd, hfound⟩) hs.2
      have := unvisited_mono S (reach_visited_suffix hs.1).subset
      omega

/-- The visited list only grows, whatever `crawl` is invoked on. -/
theorem crawl_visited_suffix (c : Config) (fuel : Nat) (cur : Str) (st : State) :
    st.visited <:+ (crawl fuel c cur st).visited := by
  induction fuel generalizing cur st with
  | zero => exact List.suffix_refl _
  | succ fuel ih =>
    cases ho : st.outOfFuel with
    | true => rw [crawl_outOfFuel fuel c cur st ho]
    | false =>
      rw [crawl_succ fuel c cur st ho]
      rcases crawlBody_cases (crawl fuel c) c cur st with
        ⟨hs, heq⟩ | ⟨he, hv, heq⟩ | ⟨he, hv, code, body, doc, hg, hi, hp, heq⟩
      · rw [heq]; exact List.suffix_refl _
      · rw [heq]; exact List.suffix_cons _ _
      · rw [heq]
        apply foldl_invariant (fun s h => followHref (crawl fuel c) c h s)
          (fun s => st.visited <:+ s.visited) (links c doc) _ _ (List.suffix_cons _ _)
        intro s l _ hs
        exact hs.trans (followHref_visited_suffix (crawl fuel c) c ih l s)

/-! ## More fuel does not change a finished run -/

theorem followHref_stuck (recurse : Str → State → State) (c : Config) (href : Str)
    (st : State) (ho : st.outOfFuel = true) : followHref recurse c href st = st := by
  simp [followHref, ho]

theorem foldl_followHref_stuck (recurse : Str → State → State) (c : Config)
    (ls : List Str) (st : State) (ho : st.outOfFuel = true) :
    ls.foldl (fun s h => followHref recurse c h s) st = st := by
  induction ls with
  | nil => rfl
  | cons l ls ih =>
    simp only [List.foldl_cons]
    rw [followHref_stuck recurse c l st ho]
    exact ih

/-- Two recursive calls that agree wherever the first one finishes give the same
walk over a list of links, when the walk with the first one finishes. -/
theorem foldl_followHref_congr (r₁ r₂ : Str → State → State) (c : Config)
    (hr : ∀ u s, (r₁ u s).outOfFuel = false → r₂ u s = r₁ u s)
    (ls : List Str) (st : State)
    (hfin : (ls.foldl (fun s h => followHref r₁ c h s) st).outOfFuel = false) :
    ls.foldl (fun s h => followHref r₂ c h s) st
      = ls.foldl (fun s h => followHref r₁ c h s) st := by
  induction ls generalizing st with
  | nil => rfl
  | cons l ls ih =>
    simp only [List.foldl_cons] at hfin ⊢
    have h1 : (followHref r₁ c l st).outOfFuel = false := by
      cases h : (followHref r₁ c l st).outOfFuel with
      | false => rfl
      | true =>
        rw [foldl_followHref_stuck r₁ c ls _ h, h] at hfin
        exact absurd hfin (by decide)
    have h2 : followHref r₂ c l st = followHref r₁ c l st := by
      unfold followHref at h1 ⊢
      cases ho : st.outOfFuel with
      | true => simp
      | false =>
        simp only [ho, Bool.false_eq_true, if_false] at h1 ⊢
        by_cases hd : (HasSuffix l "/".toList && HasPrefix l c.baseURL) = true
        · simp only [hd, if_true] at h1 ⊢
          exact hr l st h1
        · simp only [hd, if_false, Bool.false_eq_true]
    rw [h2]
    exact ih _ hfin

theorem crawlBody_congr (r₁ r₂ : Str → State → State) (c : Config) (cur : Str)
    (st : State)
    (h : ∀ doc,
      crawlBody r₁ c cur st = processNode r₁ c doc (st.entered cur (c.get st.gets cur)) →
      processNode r₂ c doc (st.entered cur (c.get st.gets cur))
        = processNode r₁ c doc (st.entered cur (c.get st.gets cur))) :
    crawlBody r₂ c cur st = crawlBody r₁ c cur st := by
  cases he : ignoreFileExtension cur c.extList with
  | true => simp [crawlBody, he]
  | false =>
    by_cases hv : cur ∈ st.visited
    · simp [crawlBody, he, hv]
    · cases hg : c.get st.gets cur with
      | error => simp [crawlBody, he, hv, hg]
      | response code body =>
        by_cases hi : code ≠ 200 ∧ c.ignoreCodes code = true
        · simp [crawlBody, he, hv, hg, hi]
        · cases body with
          | none => simp [crawlBody, he, hv, hg, hi]
          | some b =>
            cases hp : c.parse b with
            | none => simp [crawlBody, he, hv, hg, hi, hp]
            | some doc =>
              have := h doc (by simp [crawlBody, he, hv, hg, hi, hp, State.entered])
              rw [hg] at this
              simpa [crawlBody, he, hv, hg, hi, hp, State.entered] using this

/-- A call of `crawl` that finishes within its fuel gives the same state with
more fuel. -/
theorem crawl_stable (c : Config) (fuel : Nat) (cur : Str) (st : State)
    (hfin : (crawl fuel c cur st).outOfFuel = false) :
    crawl (fuel + 1) c cur st = crawl fuel c cur st := by
  induction fuel generalizing cur st with
  | zero => exact absurd hfin (by simp [crawl])
  | succ fuel ih =>
    cases ho : st.outOfFuel with
    | true => rw [crawl_outOfFuel _ c cur st ho, crawl_outOfFuel _ c cur st ho]
    | false =>
      rw [crawl_succ _ c cur st ho] at hfin ⊢
      rw [crawl_succ _ c cur st ho]
      apply crawlBody_congr
      intro doc hb
      rw [hb, processNode_eq_foldl] at hfin
      rw [processNode_eq_foldl, processNode_eq_foldl]
      exact foldl_followHref_congr (crawl fuel c) (crawl (fuel + 1) c) c
        (fun u s hu => ih u s hu) _ _ hfin

theorem crawl_stable_add (c : Config) (fuel k : Nat) (cur : Str) (st : State)
    (hfin : (crawl fuel c cur st).outOfFuel = false) :
    crawl (fuel + k) c cur st = crawl fuel c cur st := by
  induction k with
  | zero => rfl
  | succ k ih =>
    rw [← Nat.add_assoc, crawl_stable c (fuel + k) cur st (ih ▸ hfin)]
    exact ih

/-! ## The extension filter, and the site with a cycle -/

theorem extLoop_iff (u : Str) (exts : List Str) :
    extLoop u exts = true ↔ ∃ e ∈ exts, HasSuffix u (TrimSpace e) = true := by
  induction exts with
  | nil => simp [extLoop]
  | cons e exts ih =>
    unfold extLoop
    cases h : HasSuffix u (TrimSpace e) with
    | true => simp [h]
    | false => simp [h, ih]

/-- The filter rejects a URL exactly when the list is not the empty string and
the URL ends with one of its trimmed entries. -/
theorem ignoreFileExtension_iff (u extList : Str) :
    ignoreFileExtension u extList = true ↔
      extList ≠ [] ∧ ∃ e ∈ Split extList ',', HasSuffix u (TrimSpace e) = true := by
  unfold ignoreFileExtension
  by_cases h : extList = []
  · simp [h]
  · simp only [h, if_false, ne_eq, not_false_eq_true, true_and]
    exact extLoop_iff u _

theorem TrimSpace_eq_nil (e : Str) (h : ∀ ch ∈ e, isSpace ch = true) : TrimSpace e = [] := by
  unfold TrimSpace
  have : e.dropWhile isSpace = [] := List.dropWhile_eq_nil_iff.2 h
  rw [this]
  rfl

theorem crawl_filtered (c : Config) (fuel : Nat) (cur : Str) (st : State)
    (h : ignoreFileExtension cur c.extList = true) :
    (crawl fuel c cur st).gets = st.gets ∧ (crawl fuel c cur st).visited = st.visited ∧
    (crawl fuel c cur st).files = st.files := by
  cases fuel with
  | zero => exact ⟨rfl, rfl, rfl⟩
  | succ fuel =>
    cases ho : st.outOfFuel with
    | true => rw [crawl_outOfFuel fuel c cur st ho]; exact ⟨rfl, rfl, rfl⟩
    | false =>
      rw [crawl_succ fuel c cur st ho]
      have : crawlBody (crawl fuel c) c cur st = st.called cur := by
        simp [crawlBody, h, State.called]
      rw [this]
      exact ⟨rfl, rfl, rfl⟩

theorem lookup_mem {β : Type} (k : Str) (v : β) (l : List (Str × β))
    (h : l.lookup k = some v) : (k, v) ∈ l := by
  induction l with
  | nil => simp [List.lookup] at h
  | cons p l ih =>
    obtain ⟨k', v'⟩ := p
    by_cases hk : k = k'
    · subst hk
      simp only [List.lookup_cons, beq_self_eq_true] at h
      cases h
      exact List.mem_cons_self _ _
    · have : (k == k') = false := by simp [hk]
      simp only [List.lookup_cons, this] at h
      exact List.mem_cons_of_mem _ (ih h)

theorem cycleSite_closed :
    Closed cycleSite ["http://ex.com/".toList, "http://ex.com/sub/".toList] := by
  refine ⟨by decide, ?_⟩
  intro hist u code body doc _ hp
  have hm := lookup_mem body doc _ hp
  simp only [List.map_cons, List.map_nil, List.mem_cons, Prod.mk.injEq,
    List.mem_nil_iff, or_false] at hm
  rcases hm with ⟨_, rfl⟩ | ⟨_, rfl⟩
  · decide
  · decide

/-! ## The claims -/

/-- C1: for every body text `T` and keyword list `K`, `searchKeywords(T, K)` is `K`
filtered by "the lowercased keyword is a substring of the lowercased text": it is a
sublist of `K` (order and duplicates kept), a keyword is in it exactly when it is in
`K` and matches, and it is empty when `K` is empty. `strings.Contains` decides
the substring relation. -/
theorem C1_searchKeywords_is_filter (toLower : Str → Str) (T : Str) (K : List Str) :
    searchKeywords toLower T K = K.filter (fun k => decide (toLower k <:+: toLower T)) ∧
    (searchKeywords toLower T K).Sublist K ∧
    (∀ k, k ∈ searchKeywords toLower T K ↔ k ∈ K ∧ toLower k <:+: toLower T) ∧
    searchKeywords toLower T [] = [] ∧
    (∀ s substr : Str, Contains s substr = true ↔ substr <:+: s) := by
  have hfilter : searchKeywords toLower T K
      = K.filter (fun k => decide (toLower k <:+: toLower T)) := by
    rw [searchKeywords_eq_filter]
    apply List.filter_congr
    intro k _
    rw [Bool.eq_iff_iff, Contains_iff, decide_eq_true_eq]
  refine ⟨hfilter, ?_, ?_, ?_, Contains_iff⟩
  · rw [hfilter]; exact List.filter_sublist _
  · intro k
    rw [hfilter, List.mem_filter, decide_eq_true_eq]
  · rfl

/-- C2, as the code has it: `crawl` itself (line 223) issues its GET for a URL at
most once in a traversal, and the pages fetched are the visited URLs; the GETs of
the file branch (line 277) are not covered. -/
theorem C2_page_fetched_at_most_once (fuel : Nat) (c : Config) :
    (run fuel c).pageGets.Nodup ∧ (run fuel c).pageGets = (run fuel c).visited := by
  have h := Reach.invariant VisitedOnce (fun _ _ hst hs => visitedOnce_step hst hs)
    (run_reach c fuel) ⟨List.nodup_nil, rfl⟩
  exact ⟨h.2 ▸ h.1, h.2⟩

/-- C2 fails as stated: a file linked by two anchors of one page is fetched
twice. -/
theorem C2_file_fetched_twice :
    (run 2 dupSite).outOfFuel = false ∧
    (run 2 dupSite).getURLs.count "http://ex.com/f".toList = 2 := by
  decide

/-- C3: in a traversal from the base URL with empty maps, a URL that does not have
the base URL as a prefix is never fetched, never an argument of `crawl`, never
marked visited and never a key of `files`, whatever the status codes and the
extension list are. -/
theorem C3_out_of_scope_untouched (fuel : Nat) (c : Config) (u : Str)
    (hu : HasPrefix u c.baseURL = false) :
    u ∉ (run fuel c).getURLs ∧ u ∉ (run fuel c).calls ∧
    u ∉ (run fuel c).visited ∧ u ∉ (run fuel c).fileKeys := by
  have h : InScope c (run fuel c) :=
    Reach.invariant (InScope c) (fun _ _ hst hs => inScope_step hst hs) (run_reach c fuel)
      ⟨fun _ h => absurd h (List.not_mem_nil _), fun _ h => absurd h (List.not_mem_nil _),
       fun _ h => absurd h (List.not_mem_nil _), fun _ h => absurd h (List.not_mem_nil _)⟩
  obtain ⟨hg, hc, hv, hf⟩ := h
  have hne : ¬ (HasPrefix u c.baseURL = true) := by rw [hu]; decide
  refine ⟨?_, fun hm => hne (hc u hm), fun hm => hne (hv u hm), ?_⟩
  · intro hm
    obtain ⟨f, hfm, rfl⟩ := List.mem_map.1 hm
    exact hne (hg f hfm)
  · intro hm
    obtain ⟨p, hpm, rfl⟩ := List.mem_map.1 hm
    exact hne (hf p hpm)

/-- C3 at a page of `http://ex.com/` that links `http://other.com/`: the link is
among the links of the page, and it is left alone. -/
theorem C3_out_of_scope_untouched_witness :
    "http://other.com/".toList ∈ links otherSite (document (anchor "http://other.com/" "o" Node.null)) ∧
    HasPrefix "http://other.com/".toList otherSite.baseURL = false ∧
    ("http://other.com/".toList ∉ (run 3 otherSite).getURLs ∧
     "http://other.com/".toList ∉ (run 3 otherSite).calls ∧
     "http://other.com/".toList ∉ (run 3 otherSite).visited ∧
     "http://other.com/".toList ∉ (run 3 otherSite).fileKeys) :=
  ⟨by decide, by decide,
    C3_out_of_scope_untouched 3 otherSite "http://other.com/".toList (by decide)⟩

/-- C4, as the code has it: when the extension list holds an entry `e` and a URL
ends with the trimmed entry, the URL is never fetched by `crawl` itself, never
marked visited and never a key of `files`, and when it ends with a slash (a
subdirectory link) no GET at all is issued for it; the GET of the file branch is
issued before the filter is asked, and is not covered. -/
theorem C4_filtered_url_not_visited_not_recorded (fuel : Nat) (c : Config) (e u : Str)
    (hne : c.extList ≠ []) (he : e ∈ Split c.extList ',')
    (hu : HasSuffix u (TrimSpace e) = true) :
    u ∉ (run fuel c).pageGets ∧ u ∉ (run fuel c).visited ∧ u ∉ (run fuel c).fileKeys ∧
    (HasSuffix u "/".toList = true → u ∉ (run fuel c).getURLs) := by
  have hig : ignoreFileExtension u c.extList = true :=
    (ignoreFileExtension_iff u c.extList).2 ⟨hne, e, he, hu⟩
  have h : Filtered c (run fuel c) :=
    Reach.invariant (Filtered c) (fun _ _ hst hs => filtered_step hst hs) (run_reach c fuel)
      ⟨fun _ h => absurd h (List.not_mem_nil _), fun _ h => absurd h (List.not_mem_nil _),
       fun _ h => absurd h (List.not_mem_nil _)⟩
  obtain ⟨hv, hf, hg⟩ := h
  refine ⟨?_, ?_, ?_, ?_⟩
  · intro hm
    unfold State.pageGets at hm
    obtain ⟨f, hfm, rfl⟩ := List.mem_map.1 hm
    obtain ⟨hfg, hk⟩ := List.mem_filter.1 hfm
    rcases hg f hfg with ⟨_, h2⟩ | ⟨h1, _⟩
    · rw [hig] at h2
      exact absurd h2 (by decide)
    · rw [h1] at hk
      exact absurd hk (by decide)
  · intro hm
    have := hv u hm
    rw [hig] at this
    exact absurd this (by decide)
  · intro hm
    obtain ⟨p, hpm, rfl⟩ := List.mem_map.1 hm
    have := hf p hpm
    rw [hig] at this
    exact absurd this (by decide)
  · intro hsl hm
    obtain ⟨f, hfm, rfl⟩ := List.mem_map.1 hm
    rcases hg f hfm with ⟨_, h2⟩ | ⟨_, h2⟩
    · rw [hig] at h2
      exact absurd h2 (by decide)
    · rw [hsl] at h2
      exact absurd h2 (by decide)

/-- C4 at the site with a picture: `.jpg` is an entry of the list, the link ends
with it, and the URL is neither a page fetched, nor visited, nor recorded. -/
theorem C4_filtered_url_not_visited_not_recorded_witness :
    jpgSite.extList ≠ [] ∧ ".jpg".toList ∈ Split jpgSite.extList ',' ∧
    HasSuffix "http://ex.com/a.jpg".toList (TrimSpace ".jpg".toList) = true ∧
    ("http://ex.com/a.jpg".toList ∉ (run 2 jpgSite).pageGets ∧
     "http://ex.com/a.jpg".toList ∉ (run 2 jpgSite).visited ∧
     "http://ex.com/a.jpg".toList ∉ (run 2 jpgSite).fileKeys ∧
     (HasSuffix "http://ex.com/a.jpg".toList "/".toList = true →
       "http://ex.com/a.jpg".toList ∉ (run 2 jpgSite).getURLs)) :=
  ⟨by decide, by decide, by decide,
    C4_filtered_url_not_visited_not_recorded 2 jpgSite ".jpg".toList
      "http://ex.com/a.jpg".toList (by decide) (by decide) (by decide)⟩

/-- C4 fails as stated: with `.jpg` in the extension list, a file link that ends
with `.jpg` is still fetched (and then not recorded). -/
theorem C4_filtered_file_is_fetched :
    ".jpg".toList ∈ Split jpgSite.extList ',' ∧
    HasSuffix "http://ex.com/a.jpg".toList ".jpg".toList = true ∧
    "http://ex.com/a.jpg".toList ∈ links jpgSite (document (anchor "http://ex.com/a.jpg" "a" Node.null)) ∧
    (run 2 jpgSite).outOfFuel = false ∧
    (run 2 jpgSite).gets.head? = some ⟨FetchKind.file, "http://ex.com/a.jpg".toList, ok "x"⟩ ∧
    (run 2 jpgSite).files = [] := by
  decide

/-- C5: for a URL that passes the extension filter, is not yet visited, and whose
GET gives status `code` with a readable body: when `code` is not 200 and is
among the ignored codes, `crawl` returns with nothing changed except that the URL
is marked visited (and its call and GET are on record); when `code` is 200 or is
not ignored, and the body parses, `crawl` walks the parse tree, which is to
follow the links of the body in document order, the same for an error page as
for a 200 page. -/
theorem C5_status_policy (c : Config) (fuel : Nat) (cur : Str) (st : State) (code : Int)
    (body : Str) (ho : st.outOfFuel = false)
    (he : ignoreFileExtension cur c.extList = false) (hv : cur ∉ st.visited)
    (hg : c.get st.gets cur = GetResult.response code (some body)) :
    ((code ≠ 200 ∧ c.ignoreCodes code = true) →
      crawl (fuel + 1) c cur st
        = st.entered cur (GetResult.response code (some body))) ∧
    ((code = 200 ∨ c.ignoreCodes code = false) → ∀ doc, c.parse body = some doc →
      crawl (fuel + 1) c cur st
        = processNode (crawl fuel c) c doc
            (st.entered cur (GetResult.response code (some body))) ∧
      crawl (fuel + 1) c cur st
        = (links c doc).foldl (fun s h => followHref (crawl fuel c) c h s)
            (st.entered cur (GetResult.response code (some body)))) := by
  rw [crawl_succ fuel c cur st ho]
  constructor
  · intro hi
    simp [crawlBody, he, hv, hg, hi, State.entered]
  · intro hi doc hp
    have hni : ¬ (code ≠ 200 ∧ c.ignoreCodes code = true) := by
      rintro ⟨h1, h2⟩
      rcases hi with h | h
      · exact h1 h
      · rw [h] at h2; exact absurd h2 (by decide)
    have h1 : crawlBody (crawl fuel c) c cur st
        = processNode (crawl fuel c) c doc
            (st.entered cur (GetResult.response code (some body))) := by
      simp [crawlBody, he, hv, hg, hni, hp, State.entered]
    exact ⟨h1, h1.trans (processNode_eq_foldl _ _ _ _)⟩

/-- C5 at a base URL that answers 404: with 404 ignored the run stops after the
one GET; with no ignored code the link of the error page is followed. -/
theorem C5_status_policy_witness :
    (State.init.outOfFuel = false ∧
     ignoreFileExtension notFoundSite.baseURL notFoundSite.extList = false ∧
     notFoundSite.baseURL ∉ State.init.visited ∧
     notFoundSite.get State.init.gets notFoundSite.baseURL
       = GetResult.response 404 (some "<a href=\"http://ex.com/f\">f</a>".toList) ∧
     run 2 notFoundSite
       = State.init.entered notFoundSite.baseURL
           (GetResult.response 404 (some "<a href=\"http://ex.com/f\">f</a>".toList))) ∧
    (errorPageSite.parse "<a href=\"http://ex.com/f\">f</a>".toList
       = some (document (anchor "http://ex.com/f" "f" Node.null)) ∧
     run 2 errorPageSite
       = (links errorPageSite (document (anchor "http://ex.com/f" "f" Node.null))).foldl
           (fun s h => followHref (crawl 1 errorPageSite) errorPageSite h s)
           (State.init.entered errorPageSite.baseURL
             (GetResult.response 404 (some "<a href=\"http://ex.com/f\">f</a>".toList))) ∧
     (run 2 errorPageSite).getURLs = ["http://ex.com/f".toList, "http://ex.com/".toList]) :=
  ⟨⟨by decide, by decide, by decide, by decide,
      (C5_status_policy notFoundSite 1 notFoundSite.baseURL State.init 404
        "<a href=\"http://ex.com/f\">f</a>".toList (by decide) (by decide) (by decide)
        (by decide)).1 ⟨by decide, by decide⟩⟩,
    ⟨by decide,
      ((C5_status_policy errorPageSite 1 errorPageSite.baseURL State.init 404
        "<a href=\"http://ex.com/f\">f</a>".toList (by decide) (by decide) (by decide)
        (by decide)).2 (Or.inr (by decide)) _ (by decide)).2,
      by decide⟩⟩

/-- C6: for a file link (the resolved `href` has the base URL as a prefix, does
not end with a slash and passes the extension filter) whose GET gives status 200
with body `B`, processing the anchor stores under `href` the entry with URL
`href`, size the number of bytes of `B`, and keywords `searchKeywords(B, keywords)`,
and changes no other key of `files`. -/
theorem C6_file_link_recorded (recurse : Str → State → State) (c : Config)
    (attrs : List Attribute) (raw href B : Str) (st : State)
    (ha : hrefsAttrs attrs = [raw]) (ho : st.outOfFuel = false)
    (hr : resolveHref c raw = some href)
    (hp : HasPrefix href c.baseURL = true) (hs : HasSuffix href "/".toList = false)
    (he : ignoreFileExtension href c.extList = false)
    (hg : c.get st.gets href = GetResult.response 200 (some B)) :
    (processElement recurse c NodeType.ElementNode "a".toList attrs st).files
      = mapSet st.files href ⟨href, (len B : Int), searchKeywords c.toLower B c.keywords⟩ ∧
    (processElement recurse c NodeType.ElementNode "a".toList attrs st).files.lookup href
      = some ⟨href, (len B : Int), searchKeywords c.toLower B c.keywords⟩ := by
  have h1 : (processElement recurse c NodeType.ElementNode "a".toList attrs st).files
      = mapSet st.files href
          ⟨href, (len B : Int), searchKeywords c.toLower B c.keywords⟩ := by
    have hs' : HasSuffix href ['/'] = false := hs
    rw [processElement_eq_foldl]
    simp [ha, hr, followHref, ho, hs', hp, fetchFile, hg, he]
  refine ⟨h1, ?_⟩
  rw [h1]
  simp [mapSet, List.lookup_cons]

/-- C6 at the example of the specification: base `http://ex.com/`, anchor
`file.txt`, body `secret=1`, keywords `["secret"]`. -/
theorem C6_file_link_recorded_witness :
    hrefsAttrs [⟨"href".toList, "file.txt".toList⟩] = ["file.txt".toList] ∧
    State.init.outOfFuel = false ∧
    resolveHref exSite "file.txt".toList = some "http://ex.com/file.txt".toList ∧
    HasPrefix "http://ex.com/file.txt".toList exSite.baseURL = true ∧
    HasSuffix "http://ex.com/file.txt".toList "/".toList = false ∧
    ignoreFileExtension "http://ex.com/file.txt".toList exSite.extList = false ∧
    exSite.get State.init.gets "http://ex.com/file.txt".toList
      = GetResult.response 200 (some "secret=1".toList) ∧
    (len "secret=1".toList : Int) = 8 ∧
    searchKeywords exSite.toLower "secret=1".toList exSite.keywords = ["secret".toList] ∧
    (processElement (crawl 1 exSite) exSite NodeType.ElementNode "a".toList
        [⟨"href".toList, "file.txt".toList⟩] State.init).files.lookup
          "http://ex.com/file.txt".toList
      = some ⟨"http://ex.com/file.txt".toList, (len "secret=1".toList : Int),
          searchKeywords exSite.toLower "secret=1".toList exSite.keywords⟩ ∧
    (run 3 exSite).files
      = [("http://ex.com/file.txt".toList,
          ⟨"http://ex.com/file.txt".toList, 8, ["secret".toList]⟩)] :=
  ⟨by decide, by decide, by decide, by decide, by decide, by decide, by decide, by decide,
    by decide,
    (C6_file_link_recorded (crawl 1 exSite) exSite [⟨"href".toList, "file.txt".toList⟩]
      "file.txt".toList "http://ex.com/file.txt".toList "secret=1".toList State.init
      (by decide) (by decide) (by decide) (by decide) (by decide) (by decide)
      (by decide)).2,
    by decide⟩

/-- C7, as the code has it: after a traversal from the base URL with empty maps,
every entry of `files` has a key that does not end with a slash, that is not
marked visited unless it is the base URL itself, that a GET of the file branch
answered with status 200, and that passes the extension filter; and the URL field
of the entry is its key. -/
theorem C7_result_set_invariant (fuel : Nat) (c : Config) (u : Str) (info : FileInfo)
    (h : (u, info) ∈ (run fuel c).files) :
    HasSuffix u "/".toList = false ∧
    (u ∈ (run fuel c).visited → u = c.baseURL) ∧
    (∃ f ∈ (run fuel c).gets, f.kind = FetchKind.file ∧ f.url = u ∧
      ∃ body, f.result = GetResult.response 200 (some body)) ∧
    ignoreFileExtension u c.extList = false ∧
    info.URL = u := by
  have hr : Recorded c (run fuel c) :=
    Reach.invariant (Recorded c) (fun _ _ hst hs => recorded_step hst hs) (run_reach c fuel)
      ⟨fun _ h => absurd h (List.not_mem_nil _), fun _ h => absurd h (List.not_mem_nil _)⟩
  obtain ⟨h1, h2, h3, h4⟩ := hr.1 (u, info) h
  refine ⟨h1, ?_, h4, h2, h3⟩
  intro hv
  rcases hr.2 u hv with hb | hs
  · exact hb
  · rw [h1] at hs
    exact absurd hs (by decide)

/-- C7 at the example of the specification: the entry of `file.txt`. -/
theorem C7_result_set_invariant_witness :
    (("http://ex.com/file.txt".toList,
        (⟨"http://ex.com/file.txt".toList, 8, ["secret".toList]⟩ : FileInfo))
      ∈ (run 3 exSite).files) ∧
    (HasSuffix "http://ex.com/file.txt".toList "/".toList = false ∧
     ("http://ex.com/file.txt".toList ∈ (run 3 exSite).visited →
        "http://ex.com/file.txt".toList = exSite.baseURL) ∧
     (∃ f ∈ (run 3 exSite).gets, f.kind = FetchKind.file ∧
        f.url = "http://ex.com/file.txt".toList ∧
        ∃ body, f.result = GetResult.response 200 (some body)) ∧
     ignoreFileExtension "http://ex.com/file.txt".toList exSite.extList = false ∧
     (⟨"http://ex.com/file.txt".toList, 8, ["secret".toList]⟩ : FileInfo).URL
        = "http://ex.com/file.txt".toList) :=
  ⟨by decide,
    C7_result_set_invariant 3 exSite "http://ex.com/file.txt".toList
      ⟨"http://ex.com/file.txt".toList, 8, ["secret".toList]⟩ (by decide)⟩

/-- C7 fails as stated: when the base URL has no final slash and its page links to
itself, the base URL is crawled as a page (it is marked visited) and is also a
key of `files`. -/
theorem C7_base_url_visited_and_recorded :
    (run 2 selfSite).outOfFuel = false ∧
    selfSite.baseURL ∈ (run 2 selfSite).fileKeys ∧
    selfSite.baseURL ∈ (run 2 selfSite).visited := by
  decide

/-- C8 fails on the code: the anchor `httpd.conf` is a relative reference, but
since it begins with `http` line 265 takes it for an absolute URL, leaves it
unresolved, and the containment test drops it; the file is never requested,
while `readme.txt` next to it is. -/
theorem C8_httpd_conf_not_fetched :
    HasPrefix "httpd.conf".toList "http".toList = true ∧
    resolveHref httpdSite "httpd.conf".toList = some "httpd.conf".toList ∧
    httpdSite.resolve httpdSite.baseURL "httpd.conf".toList
      = some "http://ex.com/httpd.conf".toList ∧
    (run 2 httpdSite).outOfFuel = false ∧
    (run 2 httpdSite).getURLs = ["http://ex.com/readme.txt".toList, "http://ex.com/".toList] ∧
    "http://ex.com/httpd.conf".toList ∉ (run 2 httpdSite).getURLs ∧
    (run 2 httpdSite).fileKeys = ["http://ex.com/readme.txt".toList] := by
  decide

/-- C9: when a list `S` holds the base URL and every in-scope subdirectory link of
every page the site can serve, a traversal from the base URL with empty maps and
more fuel than `S` has distinct members ends without reaching the recursion
bound, also when pages link to themselves or to each other, and more fuel gives
the same final state. Every call of `crawl`
either returns at once (extension filter, or URL already visited) or puts into
`visited` a URL that was not there, and `visited` only grows; so no URL is
visited twice, every visited URL is in `S`, the pages fetched are the visited
URLs, and there are at most as many of them as `S` has distinct members. -/
theorem C9_terminates_by_visited_set (c : Config) (S : List Str) (fuel : Nat)
    (hS : Closed c S) (hfuel : S.dedup.length < fuel) :
    (run fuel c).outOfFuel = false ∧
    (∀ k, run (fuel + k) c = run fuel c) ∧
    (∀ (n : Nat) (cur : Str) (st : State), st.outOfFuel = false →
      st.visited <:+ (crawl (n + 1) c cur st).visited ∧
      (((ignoreFileExtension cur c.extList = true ∨ cur ∈ st.visited) ∧
          crawl (n + 1) c cur st = st.called cur) ∨
        (cur ∉ st.visited ∧ cur ∈ (crawl (n + 1) c cur st).visited))) ∧
    (run fuel c).visited.Nodup ∧
    (∀ u ∈ (run fuel c).visited, u ∈ S) ∧
    (run fuel c).pageGets = (run fuel c).visited ∧
    (run fuel c).pageGets.length ≤ S.dedup.length := by
  have hS' : Closed c S.dedup := by
    refine ⟨List.mem_dedup.2 hS.1, ?_⟩
    intro hist u code body doc hg hp l hl hd
    exact List.mem_dedup.2 (hS.2 hist u code body doc hg hp l hl hd)
  have hw0 : Within c S.dedup State.init :=
    ⟨fun _ h => absurd h (List.not_mem_nil _), fun _ h => absurd h (List.not_mem_nil _)⟩
  have hw : Within c S.dedup (run fuel c) :=
    Reach.invariant (Within c S.dedup) (fun _ _ hst hs => within_step hS' hst hs)
      (run_reach c fuel) hw0
  have hv : VisitedOnce (run fuel c) :=
    Reach.invariant VisitedOnce (fun _ _ hst hs => visitedOnce_step hst hs)
      (run_reach c fuel) ⟨List.nodup_nil, rfl⟩
  have hfin : (run fuel c).outOfFuel = false := by
    apply crawl_enough c S.dedup hS' fuel c.baseURL State.init hw0 (Or.inl rfl) rfl
    exact lt_of_le_of_lt (unvisited_le_length _ _) hfuel
  refine ⟨hfin, fun k => crawl_stable_add c fuel k c.baseURL State.init hfin, ?_, hv.1,
    fun u hu => List.mem_dedup.1 (hw.2 u hu), hv.2, ?_⟩
  · intro n cur st ho
    refine ⟨crawl_visited_suffix c (n + 1) cur st, ?_⟩
    have hsuf := crawl_visited_suffix c (n + 1) cur st
    rw [crawl_succ n c cur st ho] at hsuf ⊢
    rcases crawlBody_cases (crawl n c) c cur st with
      ⟨hs, heq⟩ | ⟨_, hnv, heq⟩ | ⟨_, hnv, _, _, doc, _, _, _, heq⟩
    · exact Or.inl ⟨hs, heq⟩
    · right
      refine ⟨hnv, ?_⟩
      rw [heq]
      exact List.mem_cons_self _ _
    · right
      refine ⟨hnv, ?_⟩
      rw [heq]
      have : (st.entered cur (c.get st.gets cur)).visited
          <:+ ((links c doc).foldl (fun s h => followHref (crawl n c) c h s)
                (st.entered cur (c.get st.gets cur))).visited := by
        apply foldl_invariant (fun s h => followHref (crawl n c) c h s)
          (fun s => (st.entered cur (c.get st.gets cur)).visited <:+ s.visited)
          (links c doc) _ _ (List.suffix_refl _)
        intro s l _ hs
        exact hs.trans (followHref_visited_suffix (crawl n c) c
          (fun u s' => crawl_visited_suffix c n u s') l s)
      exact this.subset (List.mem_cons_self _ _)
  · rw [hv.2]
    exact (List.subperm_of_subset hv.1 (fun u hu => hw.2 u hu)).length_le

/-- C9 at two pages that link each other and themselves: the traversal visits
each once. -/
theorem C9_terminates_by_visited_set_witness :
    Closed cycleSite ["http://ex.com/".toList, "http://ex.com/sub/".toList] ∧
    ["http://ex.com/".toList, "http://ex.com/sub/".toList].dedup.length < 3 ∧
    (run 3 cycleSite).outOfFuel = false ∧
    (run 3 cycleSite).visited = ["http://ex.com/sub/".toList, "http://ex.com/".toList] ∧
    (run 3 cycleSite).pageGets.length
      ≤ ["http://ex.com/".toList, "http://ex.com/sub/".toList].dedup.length :=
  ⟨cycleSite_closed, by decide,
    (C9_terminates_by_visited_set cycleSite
      ["http://ex.com/".toList, "http://ex.com/sub/".toList] 3 cycleSite_closed
      (by decide)).1,
    by decide,
    (C9_terminates_by_visited_set cycleSite
      ["http://ex.com/".toList, "http://ex.com/sub/".toList] 3 cycleSite_closed
      (by decide)).2.2.2.2.2.2⟩

/-- C10, as the code has it: when an extension list other than the empty string
has a comma-separated entry that is empty or all white space, the filter rejects
every URL, so that `crawl` issues no GET and leaves `visited` and `files` as they
are; for a list none of whose trimmed entries is empty, the filter rejects a
URL exactly when the URL ends with one of the trimmed entries; and the empty
string rejects nothing. -/
theorem C10_blank_entry_rejects_all (extList e : Str) (hne : extList ≠ [])
    (he : e ∈ Split extList ',') (hsp : ∀ ch ∈ e, isSpace ch = true) :
    TrimSpace e = [] ∧
    (∀ u, ignoreFileExtension u extList = true) ∧
    (∀ (c : Config) (fuel : Nat) (cur : Str) (st : State), c.extList = extList →
      (crawl fuel c cur st).gets = st.gets ∧ (crawl fuel c cur st).visited = st.visited ∧
      (crawl fuel c cur st).files = st.files) ∧
    (∀ (c : Config) (fuel : Nat), c.extList = extList →
      (run fuel c).gets = [] ∧ (run fuel c).visited = [] ∧ (run fuel c).files = []) ∧
    (∀ l u : Str, (∀ x ∈ Split l ',', TrimSpace x ≠ []) →
      (ignoreFileExtension u l = true ↔
        ∃ x ∈ Split l ',', HasSuffix u (TrimSpace x) = true)) ∧
    (∀ u : Str, ignoreFileExtension u [] = false) := by
  have ht : TrimSpace e = [] := TrimSpace_eq_nil e hsp
  have hall : ∀ u, ignoreFileExtension u extList = true := by
    intro u
    rw [ignoreFileExtension_iff]
    refine ⟨hne, e, he, ?_⟩
    rw [ht]
    exact HasSuffix_nil u
  refine ⟨ht, hall, ?_, ?_, ?_, fun _ => rfl⟩
  · intro c fuel cur st hc
    exact crawl_filtered c fuel cur st (hc ▸ hall cur)
  · intro c fuel hc
    exact crawl_filtered c fuel c.baseURL State.init (hc ▸ hall c.baseURL)
  · intro l u hl
    rw [ignoreFileExtension_iff]
    constructor
    · exact fun h => h.2
    · intro h
      refine ⟨?_, h⟩
      intro hnil
      subst hnil
      exact hl [] (by decide) (by decide)

/-- C10 at the extension list `.jpg, ,.png`, whose second entry is a single space:
the filter rejects every URL, and the traversal of the example site issues no GET
and leaves `visited` and `files` empty. -/
theorem C10_blank_entry_rejects_all_witness :
    ".jpg, ,.png".toList ≠ [] ∧ " ".toList ∈ Split ".jpg, ,.png".toList ',' ∧
    (∀ ch ∈ " ".toList, isSpace ch = true) ∧
    TrimSpace " ".toList = [] ∧
    (∀ u, ignoreFileExtension u ".jpg, ,.png".toList = true) ∧
    ((run 3 blankExtSite).gets = [] ∧ (run 3 blankExtSite).visited = [] ∧
      (run 3 blankExtSite).files = []) :=
  ⟨by decide, by decide, by decide,
    (C10_blank_entry_rejects_all ".jpg, ,.png".toList " ".toList (by decide) (by decide)
      (by decide)).1,
    (C10_blank_entry_rejects_all ".jpg, ,.png".toList " ".toList (by decide) (by decide)
      (by decide)).2.1,
    (C10_blank_entry_rejects_all ".jpg, ,.png".toList " ".toList (by decide) (by decide)
      (by decide)).2.2.2.1 blankExtSite 3 rfl⟩

/-- C10 fails as stated: the empty string, the default of the `-e` flag, splits
into one empty entry, yet line 200 makes the filter reject nothing, and the
traversal of the example site issues its three GETs. -/
theorem C10_empty_list_rejects_nothing :
    Split ([] : Str) ',' = [[]] ∧
    ([] : Str) ∈ Split ([] : Str) ',' ∧
    (∀ ch ∈ ([] : Str), isSpace ch = true) ∧
    TrimSpace [] = [] ∧
    ignoreFileExtension "http://ex.com/".toList [] = false ∧
    exSite.extList = [] ∧
    (run 3 exSite).outOfFuel = false ∧
    (run 3 exSite).getURLs
      = ["http://ex.com/file.txt".toList, "http://ex.com/sub/".toList,
         "http://ex.com/".toList] ∧
    (run 3 exSite).visited = ["http://ex.com/sub/".toList, "http://ex.com/".toList] := by
  decide

end Dirspy
